import Mathlib

/-!
Verification of the NAV snapshot comparison program (`nav_compare.py`)
against its natural-language specification.

The Python source is shallowly embedded: pandas data frames become lists of
records, Excel cells become an inductive `Cell` type, floating point NAV
values become exact rationals (with the IEEE non-finite results of a zero
denominator modelled explicitly by `PctVal`), and the row-level `while`
loops of the source become fuel-indexed structural recursions whose fuel is
provably sufficient.
-/

set_option maxHeartbeats 1000000

/-! ## Character and string model

`normalize_name` (nav_compare.py lines 8-21) works on Python strings.  We
model a Python string as a `List Char` (wrapped back into `String` at the
API boundary), Python `str.upper()` as the ASCII case map `upChar`, Python
`str.strip()` as dropping whitespace from both ends, and the loop
`while "  " in s: s = s.replace("  ", " ")` as `collapseGo`, a fuel-indexed
iteration of the single left-to-right replacement pass `rp`.
-/

/-- Whitespace test used by the model of Python `str.strip()`. -/
def isWS (c : Char) : Bool := c == ' ' || c == '\t' || c == '\n' || c == '\r'

/-- Model of Python `str.upper()` on one character (ASCII fragment):
lowercase `a`..`z` map to `A`..`Z`; every other character is unchanged. -/
def upChar (c : Char) : Char :=
  if h : 97 ≤ c.toNat ∧ c.toNat ≤ 122 then
    Char.ofNatAux (c.toNat - 32) (Or.inl (by omega))
  else c

/-- Model of Python `str.upper()` on a whole string. -/
def upStr (s : String) : String := String.mk (s.data.map upChar)

/-- Model of Python `str.strip()`: drop whitespace at both ends. -/
def stripWS (l : List Char) : List Char :=
  ((l.dropWhile isWS).reverse.dropWhile isWS).reverse

/-- One pass of Python `s.replace("  ", " ")`: scan left to right, replace
each non-overlapping occurrence of two spaces by one space and continue
after the replacement. -/
def rp : List Char → List Char
  | [] => []
  | [c] => [c]
  | a :: b :: rest =>
    if a == ' ' && b == ' ' then ' ' :: rp rest else a :: rp (b :: rest)

/-- Model of Python `"  " in s`. -/
def hasDouble : List Char → Bool
  | [] => false
  | [_] => false
  | a :: b :: rest => (a == ' ' && b == ' ') || hasDouble (b :: rest)

/-- Fuel-indexed model of `while "  " in s: s = s.replace("  ", " ")`
(nav_compare.py lines 19-20).  Each pass strictly shrinks a string that
still contains a double space, so fuel `l.length` is provably enough. -/
def collapseGo : Nat → List Char → List Char
  | 0, l => l
  | fuel + 1, l => if hasDouble l then collapseGo fuel (rp l) else l

/-- The space-collapsing loop of `normalize_name` with sufficient fuel. -/
def collapseChars (l : List Char) : List Char := collapseGo l.length l

/-- Core of `normalize_name`: uppercase, strip, collapse double spaces. -/
def normChars (l : List Char) : List Char :=
  collapseChars (stripWS (l.map upChar))

/-- `normalize_name` from nav_compare.py lines 8-21 on a string input.
(The `pd.isna` guard of the source concerns missing cells; in the embedding
missing cells are filtered before name normalization is reached, matching
lines 128-134 where applying `normalize_name` to a non-null name always
yields a non-null key.) -/
def normalize_name (s : String) : String := String.mk (normChars s.data)

/-- Model of Python `str.strip()` at the string level (used for
`df.columns.astype(str).str.strip()`, line 103). -/
def trimStr (s : String) : String := String.mk (stripWS s.data)

/-- Model of Python's substring containment `needle in hay`. -/
def containsSub (needle hay : List Char) : Bool :=
  hay.tails.any (fun t => needle.isPrefixOf t)

/-! ## Cell and sheet model

A cell of the raw sheet, as it appears after `pd.read_excel(..., header=None)`
(with merged regions already flattened by the out-of-scope collaborator):
missing cells are NaN (`empty`), text cells are strings, numeric cells carry
their exact value together with their display text (`str(x)`, used only by
the header-marker scan).  A textual cell whose content would parse under
`pd.to_numeric` is represented as `num` directly; `str` cells are the
non-numeric ones. -/
inductive Cell where
  | empty : Cell
  | str (s : String) : Cell
  | num (q : ℚ) (rep : String) : Cell
deriving DecidableEq, Repr

/-- Python `str(cell)` as used by `r.astype(str)` (line 90): NaN prints as
"nan". -/
def cellStr : Cell → String
  | .empty => "nan"
  | .str s => s
  | .num _ rep => rep

/-- A row that `dropna(how="all")` (line 86) removes. -/
def allEmpty (row : List Cell) : Bool := row.all (fun c => decide (c = Cell.empty))

/-- Line 90: `r.astype(str).str.contains("NAV Name", case=False, na=False).any()`. -/
def rowHasMarker (row : List Cell) : Bool :=
  row.any (fun c => containsSub "NAV NAME".data (upStr (cellStr c)).data)

/-- `pd.to_numeric(..., errors="coerce")` (line 124) at cell granularity:
numeric cells keep their value, anything else coerces to NaN (`none`). -/
def coerceNum : Cell → Option ℚ
  | .num q _ => some q
  | _ => none

/-- One extracted fund record (a row of the DataFrame produced by
`extract_nav_data`): display name, NAV, normalized key (line 131), and the
original sheet row number (recording source order, which pandas preserves
and which governs `drop_duplicates` keep="first"). -/
structure Rec where
  name : String
  nav : ℚ
  key : String
  idx : ℕ
deriving DecidableEq, Repr

/-- The fatal extraction errors: missing 'NAV Name' marker (line 95),
`iloc` out of bounds (line 99, reachable because the code indexes
positionally with a label), and missing required columns (line 107). -/
inductive ExErr where
  | noHeader
  | indexErr
  | noCols
deriving DecidableEq, Repr

/-- Lines 83-86: read all rows (labelled with their original positions,
pandas' RangeIndex) and drop fully-empty rows; `dropna` keeps the original
index labels. -/
def keptRows (sheet : List (List Cell)) : List (ℕ × List Cell) :=
  sheet.enum.filter (fun p => !(allEmpty p.2))

/-- Lines 88-100: find the first row whose string form contains 'NAV Name'
(the mask index is the original row LABEL), then use `iloc` - positional
indexing - with that label to pick the column-header row and the start of
the data region.  Label and position agree exactly when no fully-empty row
precedes the marker. -/
def headerStage (sheet : List (List Cell)) :
    Except ExErr (ℕ × List Cell × List (ℕ × List Cell)) :=
  match (keptRows sheet).find? (fun p => rowHasMarker p.2) with
  | none => .error .noHeader
  | some (idx, _) =>
    if h : idx < (keptRows sheet).length then
      .ok (idx, ((keptRows sheet).get ⟨idx, h⟩).2, (keptRows sheet).drop (idx + 1))
    else .error .indexErr

/-- Trimmed column labels (line 103). -/
def colLabels (hdr : List Cell) : List String := hdr.map (fun c => trimStr (cellStr c))

/-- Lines 112-134 fused at row granularity: keep the row only if its value
cell is present (line 115) and coerces to a number (lines 124-125) and its
name cell is present (line 128); then attach the normalized key (line 131;
the key of a present name is never null, so the line-134 filter drops
nothing). -/
def rowToRec (ni vi i : ℕ) (row : List Cell) : Option Rec :=
  if row.getD vi Cell.empty = Cell.empty then none
  else
    (coerceNum (row.getD vi Cell.empty)).bind (fun q =>
      if row.getD ni Cell.empty = Cell.empty then none
      else some ⟨cellStr (row.getD ni Cell.empty), q,
        normalize_name (cellStr (row.getD ni Cell.empty)), i⟩)

/-- The record rows surviving lines 112-134, in source order. -/
def rowsToRecs (ni vi : ℕ) (rows : List (ℕ × List Cell)) : List Rec :=
  rows.filterMap (fun p => rowToRec ni vi p.1 p.2)

/-- TotalRaw of a snapshot per the spec's definition (§4.5): the number of
rows that coerced to a numeric value with a non-blank name. -/
def totalRawRows (ni vi : ℕ) (rows : List (ℕ × List Cell)) : ℕ :=
  (rowsToRecs ni vi rows).length

/-- `drop_duplicates(subset=["Key"])` (line 137) with pandas' default
keep="first", as a seen-set recursion. -/
def dedupGo (seen : List String) : List Rec → List Rec
  | [] => []
  | r :: rest =>
    if r.key ∈ seen then dedupGo seen rest
    else r :: dedupGo (r.key :: seen) rest

def dedupKeys (l : List Rec) : List Rec := dedupGo [] l

/-- `extract_nav_data` (lines 71-139) before the final key deduplication. -/
def extractPre (sheet : List (List Cell)) : Except ExErr (List Rec) :=
  match headerStage sheet with
  | .error e => .error e
  | .ok (_, hdr, data) =>
    match (colLabels hdr).findIdx? (fun s => s == "NAV Name"),
          (colLabels hdr).findIdx? (fun s => s == "Net Asset Value") with
    | some ni, some vi => .ok (rowsToRecs ni vi data)
    | _, _ => .error .noCols

/-- `extract_nav_data` (lines 71-139). -/
def extract_nav_data (sheet : List (List Cell)) : Except ExErr (List Rec) :=
  (extractPre sheet).map dedupKeys

/-- Modelled from the spec: the input-document contract of §6 as the claim
reads it - the row immediately BELOW the header marker becomes the column
header and data rows start below that row.  Present only to exhibit how
this reading diverges from the code. -/
def extractHeaderBelow (sheet : List (List Cell)) : Except ExErr (List Rec) :=
  match (keptRows sheet).findIdx? (fun p => rowHasMarker p.2) with
  | none => .error .noHeader
  | some pos =>
    if h : pos + 1 < (keptRows sheet).length then
      match (colLabels ((keptRows sheet).get ⟨pos + 1, h⟩).2).findIdx?
              (fun s => s == "NAV Name"),
            (colLabels ((keptRows sheet).get ⟨pos + 1, h⟩).2).findIdx?
              (fun s => s == "Net Asset Value") with
      | some ni, some vi =>
        .ok (dedupKeys (rowsToRecs ni vi ((keptRows sheet).drop (pos + 2))))
      | _, _ => .error .noCols
    else .error .indexErr

/-! ## Comparison model -/

/-- Floor of a rational, computed from its numerator and denominator
(`Int.fdiv` is floor division and the denominator is positive). -/
def ratFloor (q : ℚ) : ℤ := Int.fdiv q.num (q.den : ℤ)

/-- Round half to even to an integer - the rounding of pandas
`Series.round`, modelled exactly over the rationals. -/
def rhe (q : ℚ) : ℤ :=
  if q - ratFloor q < 1/2 then ratFloor q
  else if 1/2 < q - ratFloor q then ratFloor q + 1
  else if ratFloor q % 2 = 0 then ratFloor q else ratFloor q + 1

/-- `.round(4)` (lines 227-229). -/
def round4 (q : ℚ) : ℚ := (rhe (q * 10000) : ℚ) / 10000

/-- `.round(2)` (line 230). -/
def round2 (q : ℚ) : ℚ := (rhe (q * 100) : ℚ) / 100

/-- Value of the `Change %` column: the float division
`change / past * 100` (line 224) produces non-finite values when
`past = 0` (±inf for a nonzero numerator, NaN for 0/0 and for a missing
past NAV); these are modelled explicitly. -/
inductive PctVal where
  | nan
  | negInf
  | posInf
  | fin (q : ℚ)
deriving DecidableEq, Repr

/-- One row of the "NAV Comparison" sheet.  The `key` field records the
join key (column `Key`); line 233 drops it from the displayed columns, but
it is retained here (equal to `normalize_name name`) to state
key-uniqueness of the output. -/
structure OutRow where
  name : String
  key : String
  latestNav : ℚ
  pastNav : Option ℚ
  change : Option ℚ
  changePct : PctVal
deriving DecidableEq, Repr

/-- Lines 222-230 for one joined row: change and its percentage are
computed from the raw NAVs (line 224 runs before the rounding at lines
227-230), then the displayed NAVs and change are rounded to 4 decimals and
the percentage to 2.  A missing past NAV propagates NaN; a zero past NAV
makes the division yield ±inf or NaN - never an exception and never an
exclusion. -/
def mkOut (l : Rec) (pNav : Option ℚ) : OutRow :=
  match pNav with
  | none => ⟨l.name, l.key, round4 l.nav, none, none, .nan⟩
  | some p =>
    ⟨l.name, l.key, round4 l.nav, some (round4 p), some (round4 (l.nav - p)),
      if p = 0 then
        (if 0 < l.nav - p then .posInf else if l.nav - p < 0 then .negInf else .nan)
      else .fin (round2 ((l.nav - p) / p * 100))⟩

/-- `pd.merge(latest, past, on="Key", how="left")` (lines 214-220): one
output row per latest row and matching past row; an unmatched latest row
appears once with a missing past NAV.  Past-only keys do not appear. -/
def mergeLeft (L P : List Rec) : List (Rec × Option ℚ) :=
  L.flatMap (fun l =>
    match P.filter (fun p => p.key == l.key) with
    | [] => [(l, none)]
    | ms => ms.map (fun p => (l, some p.nav)))

def pctTier : PctVal → ℕ
  | .nan => 0
  | .negInf => 1
  | .fin _ => 2
  | .posInf => 3

def pctQ : PctVal → ℚ
  | .fin q => q
  | _ => 0

/-- The order realized by `sort_values("Change %", ascending=False,
na_position="last")` (line 235): higher percentages first, +inf above all
finite values, -inf below them, NaN rows at the bottom. -/
def rowLe (a b : OutRow) : Bool :=
  decide (pctTier b.changePct < pctTier a.changePct) ||
    (decide (pctTier b.changePct = pctTier a.changePct) &&
      decide (pctQ b.changePct ≤ pctQ a.changePct))

/-- The order of `sort_values("Mutual Fund Name")` (lines 241, 246). -/
def pairLe (a b : String × ℚ) : Bool := decide (a.1 ≤ b.1)

def ins {α : Type} (le : α → α → Bool) (a : α) : List α → List α
  | [] => [a]
  | b :: l => if le a b then a :: b :: l else b :: ins le a l

/-- Insertion sort standing in for pandas `sort_values` (only the resulting
order is guaranteed; ties between equal sort keys carry no order guarantee
in the source either, `kind="quicksort"` being unstable). -/
def isort {α : Type} (le : α → α → Bool) : List α → List α
  | [] => []
  | a :: l => ins le a (isort le l)

/-- The written workbook, minus styling (out of scope): the main comparison
sheet and the two outlier sheets (an empty list corresponds to the sheet
being skipped at lines 254-258). -/
structure CompareResult where
  comparison : List OutRow
  missingInPast : List (String × ℚ)
  missingInLatest : List (String × ℚ)
deriving DecidableEq, Repr

/-- Lines 210-258: join, change columns, sort; outlier lists via
`~isin` (lines 239-246), sorted by name. -/
def buildResult (L P : List Rec) : CompareResult where
  comparison := isort rowLe ((mergeLeft L P).map (fun x => mkOut x.1 x.2))
  missingInPast :=
    isort pairLe ((L.filter (fun l => !(P.any (fun p => p.key == l.key)))).map
      (fun l => (l.name, l.nav)))
  missingInLatest :=
    isort pairLe ((P.filter (fun p => !(L.any (fun l => l.key == p.key)))).map
      (fun p => (p.name, p.nav)))

/-- `compare_nav_files` (lines 205-263) without the workbook-writing and
styling collaborators. -/
def compare_nav_files (latest past : List (List Cell)) : Except ExErr CompareResult :=
  match extract_nav_data latest, extract_nav_data past with
  | .ok L, .ok P => .ok (buildResult L P)
  | .error e, _ => .error e
  | _, .error e => .error e

/-! ## Spec model

The specification describes a converged design (rule store, exclusion
filter, variant resolver, reconciliation ledger) of which src/ contains no
implementation; the components below are modelled from the spec's words to
settle the claims that only those components decide. -/

namespace SpecModel

/-- Modelled from the spec (§3, §16): the rule configuration; absent from
src/, whose single file hard-codes no rules. -/
structure RuleConfig where
  exclusionKeywords : List String
  baseSchemeStripTerms : List String
  typeKeywords : List (String × List String)
  variantPriorityLadder : List (List String)
  preferredVariantKeywords : List String
deriving Repr

/-- Modelled from the spec (§4.2): replace hyphen, en dash and em dash by a
space, then normalize. -/
def cleanseDashes (s : String) : String :=
  normalize_name (String.mk (s.data.map (fun c =>
    if c = '-' ∨ c = '–' ∨ c = '—' then ' ' else c)))

/-- Remove every occurrence of `t` from `s`, scanning left to right;
fuel-indexed, and fuel `s.length` suffices because each removal consumes at
least one character. -/
def removeAllGo (t : List Char) : ℕ → List Char → List Char
  | _, [] => []
  | 0, s => s
  | fuel + 1, c :: rest =>
    if t ≠ [] ∧ t.isPrefixOf (c :: rest) then
      removeAllGo t fuel ((c :: rest).drop t.length)
    else c :: removeAllGo t fuel rest

def removeAll (t s : List Char) : List Char := removeAllGo t s.length s

/-- Modelled from the spec (§4.2): `baseIdentity(name)` - cleanse dashes,
then remove each configured strip term in configured order
(case-insensitive substring removal on the partially stripped string),
then re-normalize. -/
def baseIdentity (cfg : RuleConfig) (s : String) : String :=
  normalize_name (String.mk (cfg.baseSchemeStripTerms.foldl
    (fun acc t => removeAll (upStr t).data acc) (cleanseDashes s).data))

/-- Modelled from the spec (§4.3): first exclusion keyword whose uppercase
form is a substring of the uppercased name. -/
def classify (cfg : RuleConfig) (name : String) : Option String :=
  cfg.exclusionKeywords.find? (fun kw =>
    containsSub (upStr kw).data (upStr name).data)

/-- Modelled from the spec (§4.4): a ladder rule matches a member iff the
member's uppercased name contains all keywords of the rule. -/
def matchesRule (rule : List String) (name : String) : Bool :=
  rule.all (fun kw => containsSub (upStr kw).data (upStr name).data)

/-- Record with the smallest `originalRowIndex` among `a :: l`. -/
def minIdx (a : Rec) (l : List Rec) : Rec :=
  l.foldl (fun b x => if x.idx < b.idx then x else b) a

/-- Modelled from the spec (§4.4): canonical member of the group
`r :: same` - the first ladder rule matched by some member wins and the
smallest original row index among its matchers is canonical; with no
matching rule, the smallest index overall. -/
def chooseCanonical (cfg : RuleConfig) (r : Rec) (same : List Rec) : Rec :=
  match cfg.variantPriorityLadder.find?
      (fun rule => (r :: same).any (fun m => matchesRule rule m.name)) with
  | some rule =>
    match (r :: same).filter (fun m => matchesRule rule m.name) with
    | [] => r
    | m :: ms => minIdx m ms
  | none => minIdx r same

/-- Modelled from the spec (§4.4): group the post-exclusion records by
`baseIdentity`; each group contributes exactly one canonical record and
every other member is excluded as a non-preferred variant. -/
def resolveVariants (cfg : RuleConfig) : List Rec → List Rec × List Rec
  | [] => ([], [])
  | r :: rest =>
    let same := rest.filter
      (fun x => baseIdentity cfg x.name == baseIdentity cfg r.name)
    let diff := rest.filter
      (fun x => !(baseIdentity cfg x.name == baseIdentity cfg r.name))
    let c := chooseCanonical cfg r same
    let res := resolveVariants cfg diff
    (c :: res.1, ((r :: same).erase c) ++ res.2)
termination_by l => l.length
decreasing_by
  simp only [List.length_cons]
  exact Nat.lt_succ_of_le (List.length_filter_le _ _)

/-- Reconciliation category of one canonical record (spec §4.6). -/
inductive RCat where
  | included
  | zeroNav
  | notComparable
deriving DecidableEq, Repr

/-- Modelled from the spec (§4.6): a record with no counterpart key on the
other side is not comparable; with a zero NAV on either side it is
excluded before any division; otherwise it enters the comparison. -/
def rcat (others : List Rec) (r : Rec) : RCat :=
  match others.find? (fun o => o.key == r.key) with
  | none => .notComparable
  | some o => if r.nav = 0 ∨ o.nav = 0 then .zeroNav else .included

/-- The per-snapshot reconciliation ledger (spec §3). -/
structure Ledger where
  totalRaw : ℕ
  includedInComparison : ℕ
  excludedByRule : ℕ
  excludedVariant : ℕ
  excludedZeroNav : ℕ
  excludedNotComparable : ℕ
deriving DecidableEq, Repr

/-- Modelled from the spec (§4.5-§4.6): the per-snapshot pipeline and its
ledger.  `mine` is this snapshot's record list after numeric coercion (so
`TotalRaw = mine.length` per §4.5), `others` the counterpart snapshot's;
both sides run the exclusion filter and variant resolver, and the
categories of §4.6 are counted over this side's canonical records. -/
def snapshotLedger (cfg : RuleConfig) (mine others : List Rec) : Ledger :=
  let byRule := mine.filter (fun r => (classify cfg r.name).isSome)
  let passed := mine.filter (fun r => !((classify cfg r.name).isSome))
  let mres := resolveVariants cfg passed
  let othersPassed := others.filter (fun r => !((classify cfg r.name).isSome))
  let othersCanon := (resolveVariants cfg othersPassed).1
  { totalRaw := mine.length
    includedInComparison :=
      (mres.1.filter (fun r => decide (rcat othersCanon r = .included))).length
    excludedByRule := byRule.length
    excludedVariant := mres.2.length
    excludedZeroNav :=
      (mres.1.filter (fun r => decide (rcat othersCanon r = .zeroNav))).length
    excludedNotComparable :=
      (mres.1.filter (fun r => decide (rcat othersCanon r = .notComparable))).length }

end SpecModel

/-- Decidable equality for `Except` results, so that concrete runs of the
embedded program can be checked by `decide`. -/
instance {ε α : Type} [DecidableEq ε] [DecidableEq α] : DecidableEq (Except ε α) :=
  fun x y =>
    match x, y with
    | .ok a, .ok b =>
      if h : a = b then isTrue (by rw [h])
      else isFalse (fun hh => h (Except.ok.inj hh))
    | .error a, .error b =>
      if h : a = b then isTrue (by rw [h])
      else isFalse (fun hh => h (Except.error.inj hh))
    | .ok _, .error _ => isFalse (fun hh => Except.noConfusion hh)
    | .error _, .ok _ => isFalse (fun hh => Except.noConfusion hh)

/-! ## Concrete inputs used by counterexamples and witnesses -/

/-- The header row shared by the concrete test sheets. -/
def hdrRow : List Cell := [Cell.str "NAV Name", Cell.str "Net Asset Value"]

def s2latest : List (List Cell) := [hdrRow, [Cell.str "A FUND", Cell.num 10 "10"]]

def s2past : List (List Cell) :=
  [hdrRow, [Cell.str "A FUND", Cell.num 10 "10"], [Cell.str "B FUND", Cell.num 20 "20"]]

def s3latest : List (List Cell) := [hdrRow, [Cell.str "ABC FUND", Cell.num 0 "0"]]

def s3past : List (List Cell) := [hdrRow, [Cell.str "ABC FUND", Cell.num 10 "10"]]

def s3wLatest : List (List Cell) := [hdrRow, [Cell.str "DEF FUND", Cell.num 5 "5"]]

def s3wPast : List (List Cell) := [hdrRow, [Cell.str "DEF FUND", Cell.num 0 "0"]]

/-- Strip terms and priority ladder of the spec's Scenario B. -/
def cfgX : SpecModel.RuleConfig :=
  ⟨[], ["REGULAR PLAN", "DIRECT PLAN", "GROWTH"], [], [["REGULAR PLAN", "GROWTH"]], []⟩

def s4sheet : List (List Cell) :=
  [hdrRow,
   [Cell.str "XYZ FUND REGULAR PLAN GROWTH", Cell.num 20 "20"],
   [Cell.str "XYZ FUND DIRECT PLAN GROWTH", Cell.num 25 "25"]]

def s5latest : List (List Cell) :=
  [hdrRow, [Cell.str "ABC FUND", Cell.num (10000149/1000000) "10.000149"]]

def s5past : List (List Cell) :=
  [hdrRow, [Cell.str "ABC FUND", Cell.num (10000051/1000000) "10.000051"]]

/-- Scenario A of the spec (§8). -/
def sAlatest : List (List Cell) :=
  [hdrRow, [Cell.str "ABC Fund - Direct Plan - Growth", Cell.num (21/2) "10.50"]]

def sApast : List (List Cell) :=
  [hdrRow, [Cell.str "ABC Fund - Direct Plan - Growth", Cell.num 10 "10.00"]]

def s9sheet : List (List Cell) := [hdrRow, [Cell.str "Fund A", Cell.num 10 "10"]]

def s10latest : List (List Cell) :=
  [hdrRow,
   [Cell.str "UP FUND", Cell.num 11 "11"],
   [Cell.str "DOWN FUND", Cell.num 9 "9"],
   [Cell.str "ONLY FUND", Cell.num 7 "7"]]

def s10past : List (List Cell) :=
  [hdrRow,
   [Cell.str "UP FUND", Cell.num 10 "10"],
   [Cell.str "DOWN FUND", Cell.num 10 "10"]]

/-! ### Facts about the character model -/

theorem upChar_toNat (c : Char) (h : 97 ≤ c.toNat ∧ c.toNat ≤ 122) :
    (upChar c).toNat = c.toNat - 32 := by
  unfold upChar
  rw [dif_pos h]
  rfl

theorem upChar_eq_self (c : Char) (h : ¬ (97 ≤ c.toNat ∧ c.toNat ≤ 122)) :
    upChar c = c := by
  unfold upChar
  split
  · exact absurd (by assumption) h
  · rfl

theorem upChar_idem (c : Char) : upChar (upChar c) = upChar c := by
  by_cases h : 97 ≤ c.toNat ∧ c.toNat ≤ 122
  · have h1 : (upChar c).toNat = c.toNat - 32 := upChar_toNat c h
    have : ¬ (97 ≤ (upChar c).toNat ∧ (upChar c).toNat ≤ 122) := by
      rw [h1]; omega
    exact upChar_eq_self _ this
  · rw [upChar_eq_self c h, upChar_eq_self c h]

theorem char_toNat_inj {a b : Char} (h : a.toNat = b.toNat) : a = b :=
  Char.eq_of_val_eq (UInt32.toNat.inj h)

theorem isWS_false_of_toNat (c : Char)
    (h : c.toNat ≠ 32 ∧ c.toNat ≠ 9 ∧ c.toNat ≠ 10 ∧ c.toNat ≠ 13) :
    isWS c = false := by
  simp only [isWS, Bool.or_eq_false_iff, beq_eq_false_iff_ne, ne_eq]
  refine ⟨⟨⟨?_, ?_⟩, ?_⟩, ?_⟩ <;> intro hc <;> subst hc <;> revert h <;> decide

theorem upChar_space_iff (c : Char) : upChar c = ' ' ↔ c = ' ' := by
  constructor
  · intro h
    by_cases hr : 97 ≤ c.toNat ∧ c.toNat ≤ 122
    · exfalso
      have h1 : (upChar c).toNat = c.toNat - 32 := upChar_toNat c hr
      rw [h] at h1
      have h2 : (' ' : Char).toNat = 32 := by decide
      omega
    · rwa [upChar_eq_self c hr] at h
  · intro h
    subst h
    exact upChar_eq_self ' ' (by decide)

theorem isWS_upChar (c : Char) : isWS (upChar c) = isWS c := by
  by_cases hr : 97 ≤ c.toNat ∧ c.toNat ≤ 122
  · have h1 : (upChar c).toNat = c.toNat - 32 := upChar_toNat c hr
    have hl : isWS c = false := isWS_false_of_toNat c (by omega)
    have hu : isWS (upChar c) = false := isWS_false_of_toNat _ (by omega)
    rw [hl, hu]
  · rw [upChar_eq_self c hr]

/-! ### Facts about the space-collapsing pass `rp` -/

theorem upChar_beq_space (c : Char) : (upChar c == ' ') = (c == ' ') := by
  rcases hx : c == ' ' with _ | _
  · rcases hy : upChar c == ' ' with _ | _
    · rfl
    · exact absurd (beq_iff_eq.mpr ((upChar_space_iff c).mp (eq_of_beq hy)))
        (by simp [hx])
  · have : c = ' ' := eq_of_beq hx
    subst this
    simp [(upChar_space_iff ' ').mpr rfl]

theorem getLast?_cons_ne {α : Type} (a : α) {l : List α} (h : l ≠ []) :
    (a :: l).getLast? = l.getLast? := by
  cases l with
  | nil => exact absurd rfl h
  | cons x t => simp

theorem rp_head? (l : List Char) : (rp l).head? = l.head? := by
  induction l using rp.induct with
  | case1 => rfl
  | case2 c => rfl
  | case3 a b rest h ih =>
    rw [rp, if_pos h]
    have ha : a = ' ' := eq_of_beq ((Bool.and_eq_true _ _).mp h).1
    simp [ha]
  | case4 a b rest h ih =>
    rw [rp, if_neg h]
    rfl

theorem rp_ne_nil {l : List Char} (h : l ≠ []) : rp l ≠ [] := by
  intro hc
  have h1 : (rp l).head? = l.head? := rp_head? l
  rw [hc] at h1
  cases l with
  | nil => exact h rfl
  | cons a t => simp at h1

theorem rp_getLast? (l : List Char) : (rp l).getLast? = l.getLast? := by
  induction l using rp.induct with
  | case1 => rfl
  | case2 c => rfl
  | case3 a b rest h ih =>
    rw [rp, if_pos h]
    have ha : a = ' ' := eq_of_beq ((Bool.and_eq_true _ _).mp h).1
    have hb : b = ' ' := eq_of_beq ((Bool.and_eq_true _ _).mp h).2
    subst ha hb
    by_cases hrn : rest = []
    · subst hrn; simp [rp]
    · rw [getLast?_cons_ne _ (rp_ne_nil hrn), ih,
        List.getLast?_cons_cons, getLast?_cons_ne _ hrn]
  | case4 a b rest h ih =>
    rw [rp, if_neg h]
    rw [getLast?_cons_ne _ (rp_ne_nil (by simp)), ih, List.getLast?_cons_cons]

theorem rp_length_le (l : List Char) : (rp l).length ≤ l.length := by
  induction l using rp.induct with
  | case1 => simp [rp]
  | case2 c => simp [rp]
  | case3 a b rest h ih =>
    rw [rp, if_pos h]
    simp only [List.length_cons]
    omega
  | case4 a b rest h ih =>
    rw [rp, if_neg h]
    simp only [List.length_cons] at *
    omega

theorem rp_length_lt {l : List Char} (h : hasDouble l = true) :
    (rp l).length < l.length := by
  induction l using rp.induct with
  | case1 => simp [hasDouble] at h
  | case2 c => simp [hasDouble] at h
  | case3 a b rest hc ih =>
    rw [rp, if_pos hc]
    have := rp_length_le rest
    simp only [List.length_cons]
    omega
  | case4 a b rest hc ih =>
    rw [rp, if_neg hc]
    have hd : hasDouble (b :: rest) = true := by
      rw [hasDouble] at h
      rcases (Bool.or_eq_true _ _).mp h with h1 | h1
      · exact absurd h1 (by simpa using hc)
      · exact h1
    have := ih hd
    simp only [List.length_cons] at *
    omega

theorem rp_map_upChar (l : List Char) : rp (l.map upChar) = (rp l).map upChar := by
  induction l using rp.induct with
  | case1 => rfl
  | case2 c => rfl
  | case3 a b rest h ih =>
    simp only [List.map_cons]
    conv_lhs => rw [rp]
    rw [if_pos (by simp only [upChar_beq_space]; exact h)]
    conv_rhs => rw [rp]
    rw [if_pos h]
    simp only [List.map_cons]
    rw [ih]
    have ha : a = ' ' := eq_of_beq ((Bool.and_eq_true _ _).mp h).1
    simp [ha, (upChar_space_iff ' ').mpr rfl]
  | case4 a b rest h ih =>
    simp only [List.map_cons]
    conv_lhs => rw [rp]
    rw [if_neg (by simp only [upChar_beq_space]; exact h)]
    conv_rhs => rw [rp]
    rw [if_neg h]
    simp only [List.map_cons] at ih ⊢
    rw [ih]

theorem hasDouble_map_upChar (l : List Char) :
    hasDouble (l.map upChar) = hasDouble l := by
  induction l using hasDouble.induct with
  | case1 => rfl
  | case2 c => rfl
  | case3 a b rest ih =>
    simp only [List.map_cons] at ih ⊢
    rw [hasDouble, hasDouble, upChar_beq_space, upChar_beq_space, ih]

/-! ### Facts about the collapse loop and strip -/

theorem collapseGo_noDouble (fuel : ℕ) :
    ∀ l : List Char, l.length ≤ fuel → hasDouble (collapseGo fuel l) = false := by
  induction fuel with
  | zero =>
    intro l hl
    have : l = [] := List.eq_nil_of_length_eq_zero (Nat.le_zero.mp hl)
    subst this
    rfl
  | succ n ih =>
    intro l hl
    rw [collapseGo]
    by_cases hd : hasDouble l = true
    · rw [if_pos hd]
      exact ih (rp l) (by have := rp_length_lt hd; omega)
    · rw [if_neg hd]
      simpa using hd

theorem collapseGo_of_noDouble (fuel : ℕ) (l : List Char)
    (h : hasDouble l = false) : collapseGo fuel l = l := by
  cases fuel with
  | zero => rfl
  | succ n => rw [collapseGo, h]; simp

theorem collapseGo_head? (fuel : ℕ) :
    ∀ l : List Char, (collapseGo fuel l).head? = l.head? := by
  induction fuel with
  | zero => intro l; rfl
  | succ n ih =>
    intro l
    rw [collapseGo]
    by_cases hd : hasDouble l = true
    · rw [if_pos hd, ih (rp l), rp_head?]
    · rw [if_neg hd]

theorem collapseGo_getLast? (fuel : ℕ) :
    ∀ l : List Char, (collapseGo fuel l).getLast? = l.getLast? := by
  induction fuel with
  | zero => intro l; rfl
  | succ n ih =>
    intro l
    rw [collapseGo]
    by_cases hd : hasDouble l = true
    · rw [if_pos hd, ih (rp l), rp_getLast?]
    · rw [if_neg hd]

theorem collapseGo_map_upChar (fuel : ℕ) :
    ∀ l : List Char, collapseGo fuel (l.map upChar) = (collapseGo fuel l).map upChar := by
  induction fuel with
  | zero => intro l; rfl
  | succ n ih =>
    intro l
    rw [collapseGo, collapseGo, hasDouble_map_upChar]
    by_cases hd : hasDouble l = true
    · rw [if_pos hd, if_pos hd, rp_map_upChar, ih (rp l)]
    · rw [if_neg hd, if_neg hd]

theorem collapseChars_map_upChar (l : List Char) :
    collapseChars (l.map upChar) = (collapseChars l).map upChar := by
  unfold collapseChars
  rw [List.length_map]
  exact collapseGo_map_upChar l.length l

theorem dropWhile_map_upChar (l : List Char) :
    (l.map upChar).dropWhile isWS = (l.dropWhile isWS).map upChar := by
  have hfn : (isWS ∘ upChar) = isWS := funext isWS_upChar
  rw [List.dropWhile_map, hfn]

theorem stripWS_map_upChar (l : List Char) :
    stripWS (l.map upChar) = (stripWS l).map upChar := by
  unfold stripWS
  rw [dropWhile_map_upChar, ← List.map_reverse, dropWhile_map_upChar, List.map_reverse]

theorem getLast?_dropWhile_ne {α : Type} (p : α → Bool) (l : List α)
    (h : l.dropWhile p ≠ []) : (l.dropWhile p).getLast? = l.getLast? := by
  induction l with
  | nil => simp at h
  | cons a t ih =>
    rw [List.dropWhile_cons]
    rw [List.dropWhile_cons] at h
    by_cases hp : p a = true
    · rw [if_pos hp] at h ⊢
      rw [ih h]
      have ht : t ≠ [] := by
        intro he; rw [he] at h; simp at h
      exact (getLast?_cons_ne a ht).symm
    · rw [if_neg hp]

theorem stripWS_head? (l : List Char) :
    ∀ c, (stripWS l).head? = some c → isWS c = false := by
  intro c hc
  unfold stripWS at hc
  rw [List.head?_reverse] at hc
  by_cases hx : (l.dropWhile isWS).reverse.dropWhile isWS = []
  · rw [hx] at hc; simp at hc
  · rw [getLast?_dropWhile_ne isWS _ hx, List.getLast?_reverse] at hc
    have := List.head?_dropWhile_not isWS l
    rw [hc] at this
    exact this

theorem stripWS_getLast? (l : List Char) :
    ∀ c, (stripWS l).getLast? = some c → isWS c = false := by
  intro c hc
  unfold stripWS at hc
  rw [List.getLast?_reverse] at hc
  have := List.head?_dropWhile_not isWS (l.dropWhile isWS).reverse
  rw [hc] at this
  exact this

theorem dropWhile_eq_self_of_head (p : Char → Bool) (l : List Char)
    (h : ∀ c, l.head? = some c → p c = false) : l.dropWhile p = l := by
  cases l with
  | nil => rfl
  | cons a t =>
    rw [List.dropWhile_cons, h a rfl]
    simp

theorem stripWS_eq_self (l : List Char)
    (h1 : ∀ c, l.head? = some c → isWS c = false)
    (h2 : ∀ c, l.getLast? = some c → isWS c = false) : stripWS l = l := by
  unfold stripWS
  rw [dropWhile_eq_self_of_head isWS l h1]
  rw [dropWhile_eq_self_of_head isWS l.reverse
    (by intro c hc; rw [List.head?_reverse] at hc; exact h2 c hc)]
  exact List.reverse_reverse l

theorem map_upChar_map_upChar (l : List Char) :
    (l.map upChar).map upChar = l.map upChar := by
  rw [List.map_map]
  exact List.map_congr_left (fun a _ => upChar_idem a)

theorem normChars_map_upChar_eq (l : List Char) :
    (normChars l).map upChar = normChars l := by
  unfold normChars
  rw [← collapseChars_map_upChar, ← stripWS_map_upChar, map_upChar_map_upChar]

theorem normChars_noDouble (l : List Char) : hasDouble (normChars l) = false := by
  unfold normChars collapseChars
  exact collapseGo_noDouble _ _ le_rfl

theorem normChars_head? (l : List Char) :
    ∀ c, (normChars l).head? = some c → isWS c = false := by
  intro c hc
  unfold normChars collapseChars at hc
  rw [collapseGo_head?] at hc
  exact stripWS_head? _ c hc

theorem normChars_getLast? (l : List Char) :
    ∀ c, (normChars l).getLast? = some c → isWS c = false := by
  intro c hc
  unfold normChars collapseChars at hc
  rw [collapseGo_getLast?] at hc
  exact stripWS_getLast? _ c hc

theorem normChars_idem (l : List Char) : normChars (normChars l) = normChars l := by
  conv_lhs => rw [normChars]
  rw [normChars_map_upChar_eq]
  rw [stripWS_eq_self _ (normChars_head? l) (normChars_getLast? l)]
  unfold collapseChars
  exact collapseGo_of_noDouble _ _ (normChars_noDouble l)

/-! ### Facts about the insertion sort -/

theorem mem_ins {α : Type} (le : α → α → Bool) (a x : α) (l : List α) :
    x ∈ ins le a l ↔ x = a ∨ x ∈ l := by
  induction l with
  | nil => simp [ins]
  | cons b t ih =>
    rw [ins]
    by_cases h : le a b = true
    · rw [if_pos h]
      simp only [List.mem_cons]
    · rw [if_neg h]
      simp only [List.mem_cons, ih]
      tauto

theorem ins_perm {α : Type} (le : α → α → Bool) (a : α) (l : List α) :
    (ins le a l).Perm (a :: l) := by
  induction l with
  | nil => simp [ins]
  | cons b t ih =>
    rw [ins]
    by_cases h : le a b = true
    · rw [if_pos h]
    · rw [if_neg h]
      exact (ih.cons b).trans (List.Perm.swap a b t)

theorem isort_perm {α : Type} (le : α → α → Bool) (l : List α) :
    (isort le l).Perm l := by
  induction l with
  | nil => simp [isort]
  | cons a t ih =>
    rw [isort]
    exact (ins_perm le a (isort le t)).trans (ih.cons a)

theorem ins_sorted {α : Type} (le : α → α → Bool)
    (htot : ∀ x y, le x y = true ∨ le y x = true)
    (htrans : ∀ x y z, le x y = true → le y z = true → le x z = true)
    (a : α) (l : List α) (h : l.Pairwise (fun x y => le x y = true)) :
    (ins le a l).Pairwise (fun x y => le x y = true) := by
  induction l with
  | nil => simp [ins]
  | cons b t ih =>
    rw [List.pairwise_cons] at h
    rw [ins]
    by_cases hab : le a b = true
    · rw [if_pos hab]
      rw [List.pairwise_cons]
      constructor
      · intro x hx
        rcases List.mem_cons.mp hx with hx | hx
        · rw [hx]; exact hab
        · exact htrans a b x hab (h.1 x hx)
      · rw [List.pairwise_cons]
        exact h
    · rw [if_neg hab]
      rw [List.pairwise_cons]
      constructor
      · intro x hx
        rcases (mem_ins le a x t).mp hx with hx | hx
        · rw [hx]
          rcases htot a b with hh | hh
          · exact absurd hh hab
          · exact hh
        · exact h.1 x hx
      · exact ih h.2

theorem isort_sorted {α : Type} (le : α → α → Bool)
    (htot : ∀ x y, le x y = true ∨ le y x = true)
    (htrans : ∀ x y z, le x y = true → le y z = true → le x z = true)
    (l : List α) : (isort le l).Pairwise (fun x y => le x y = true) := by
  induction l with
  | nil => simp [isort]
  | cons a t ih =>
    rw [isort]
    exact ins_sorted le htot htrans a (isort le t) ih

theorem rowLe_total (a b : OutRow) : rowLe a b = true ∨ rowLe b a = true := by
  unfold rowLe
  rcases Nat.lt_trichotomy (pctTier a.changePct) (pctTier b.changePct) with h | h | h
  · right; simp [h]
  · rcases le_total (pctQ a.changePct) (pctQ b.changePct) with hq | hq
    · right; simp [h, hq]
    · left; simp [h, hq]
  · left; simp [h]

theorem rowLe_trans (a b c : OutRow)
    (h1 : rowLe a b = true) (h2 : rowLe b c = true) : rowLe a c = true := by
  unfold rowLe at *
  simp only [Bool.or_eq_true, Bool.and_eq_true, decide_eq_true_eq] at *
  rcases h1 with h1 | ⟨h1e, h1q⟩ <;> rcases h2 with h2 | ⟨h2e, h2q⟩
  · left; omega
  · left; omega
  · left; omega
  · right; exact ⟨by omega, le_trans h2q h1q⟩

theorem pairLe_total (a b : String × ℚ) : pairLe a b = true ∨ pairLe b a = true := by
  unfold pairLe
  rcases le_total a.1 b.1 with h | h
  · left; simpa using h
  · right; simpa using h

theorem pairLe_trans (a b c : String × ℚ)
    (h1 : pairLe a b = true) (h2 : pairLe b c = true) : pairLe a c = true := by
  unfold pairLe at *
  simp only [decide_eq_true_eq] at *
  exact le_trans h1 h2

/-! ### Facts about deduplication -/

theorem mkOut_key (l : Rec) (p? : Option ℚ) : (mkOut l p?).key = l.key := by
  cases p? <;> rfl

theorem mkOut_name (l : Rec) (p? : Option ℚ) : (mkOut l p?).name = l.name := by
  cases p? <;> rfl

theorem dedupGo_mem : ∀ (seen : List String) (l : List Rec) (r : Rec),
    r ∈ dedupGo seen l → r ∈ l := by
  intro seen l
  induction l generalizing seen with
  | nil => intro r h; rw [dedupGo] at h; exact absurd h (List.not_mem_nil r)
  | cons a t ih =>
    intro r h
    rw [dedupGo] at h
    by_cases hk : a.key ∈ seen
    · rw [if_pos hk] at h
      exact List.mem_cons_of_mem a (ih seen r h)
    · rw [if_neg hk] at h
      rcases List.mem_cons.mp h with h | h
      · rw [h]; exact List.mem_cons_self a t
      · exact List.mem_cons_of_mem a (ih _ r h)

theorem dedupGo_key_not_seen : ∀ (seen : List String) (l : List Rec) (r : Rec),
    r ∈ dedupGo seen l → r.key ∉ seen := by
  intro seen l
  induction l generalizing seen with
  | nil => intro r h; rw [dedupGo] at h; exact absurd h (List.not_mem_nil r)
  | cons a t ih =>
    intro r h
    rw [dedupGo] at h
    by_cases hk : a.key ∈ seen
    · rw [if_pos hk] at h
      exact ih seen r h
    · rw [if_neg hk] at h
      rcases List.mem_cons.mp h with h | h
      · rw [h]; exact hk
      · intro hc
        exact ih _ r h (List.mem_cons_of_mem _ hc)

theorem dedupGo_nodup : ∀ (seen : List String) (l : List Rec),
    ((dedupGo seen l).map (fun r => r.key)).Nodup := by
  intro seen l
  induction l generalizing seen with
  | nil => rw [dedupGo]; simp
  | cons a t ih =>
    rw [dedupGo]
    by_cases hk : a.key ∈ seen
    · rw [if_pos hk]; exact ih seen
    · rw [if_neg hk]
      rw [List.map_cons, List.nodup_cons]
      refine ⟨?_, ih _⟩
      intro hc
      rcases List.mem_map.mp hc with ⟨r, hr, hkey⟩
      exact dedupGo_key_not_seen _ _ _ hr (hkey ▸ List.mem_cons_self _ _)

theorem dedupGo_keys_complete : ∀ (seen : List String) (l : List Rec) (k : String),
    k ∈ l.map (fun r => r.key) → k ∉ seen → k ∈ (dedupGo seen l).map (fun r => r.key) := by
  intro seen l
  induction l generalizing seen with
  | nil => intro k h _; simp at h
  | cons a t ih =>
    intro k h hns
    rw [List.map_cons] at h
    rw [dedupGo]
    by_cases hk : a.key ∈ seen
    · rw [if_pos hk]
      rcases List.mem_cons.mp h with h | h
      · exact absurd (h ▸ hk) hns
      · exact ih seen k h hns
    · rw [if_neg hk]
      rw [List.map_cons]
      rcases List.mem_cons.mp h with h | h
      · exact h ▸ List.mem_cons_self _ _
      · by_cases hak : k = a.key
        · exact hak ▸ List.mem_cons_self _ _
        · exact List.mem_cons_of_mem _
            (ih _ k h (by simp only [List.mem_cons]; tauto))

theorem dedupGo_min_idx : ∀ (seen : List String) (l : List Rec),
    l.Pairwise (fun a b => a.idx < b.idx) →
    ∀ r ∈ dedupGo seen l, ∀ x ∈ l, x.key = r.key → r.idx ≤ x.idx := by
  intro seen l
  induction l generalizing seen with
  | nil => intro _ r hr; rw [dedupGo] at hr; exact absurd hr (List.not_mem_nil r)
  | cons a t ih =>
    intro hp r hr x hx hkey
    rw [List.pairwise_cons] at hp
    rw [dedupGo] at hr
    by_cases hk : a.key ∈ seen
    · rw [if_pos hk] at hr
      rcases List.mem_cons.mp hx with hxa | hxt
      · exfalso
        apply dedupGo_key_not_seen seen t r hr
        rw [← hkey, hxa]
        exact hk
      · exact ih seen hp.2 r hr x hxt hkey
    · rw [if_neg hk] at hr
      rcases List.mem_cons.mp hr with hra | hrt
      · rcases List.mem_cons.mp hx with hxa | hxt
        · rw [hra, hxa]
        · rw [hra]
          exact Nat.le_of_lt (hp.1 x hxt)
      · rcases List.mem_cons.mp hx with hxa | hxt
        · exfalso
          apply dedupGo_key_not_seen _ t r hrt
          rw [← hkey, hxa]
          exact List.mem_cons_self _ _
        · exact ih _ hp.2 r hrt x hxt hkey

theorem dedupKeys_nodup (l : List Rec) :
    ((dedupKeys l).map (fun r => r.key)).Nodup := dedupGo_nodup [] l

theorem dedupKeys_mem {l : List Rec} {r : Rec} (h : r ∈ dedupKeys l) : r ∈ l :=
  dedupGo_mem [] l r h

theorem dedupKeys_keys_complete {l : List Rec} {k : String}
    (h : k ∈ l.map (fun r => r.key)) : k ∈ (dedupKeys l).map (fun r => r.key) :=
  dedupGo_keys_complete [] l k h (List.not_mem_nil k)

theorem dedupKeys_min_idx {l : List Rec}
    (hp : l.Pairwise (fun a b => a.idx < b.idx)) :
    ∀ r ∈ dedupKeys l, ∀ x ∈ l, x.key = r.key → r.idx ≤ x.idx :=
  dedupGo_min_idx [] l hp

/-! ### Facts about the left join and result assembly -/

theorem filter_key_nil_or_single {P : List Rec}
    (h : (P.map (fun r => r.key)).Nodup) (k : String) :
    P.filter (fun p => p.key == k) = [] ∨
      ∃ p, P.filter (fun p => p.key == k) = [p] := by
  induction P with
  | nil => left; rfl
  | cons p t ih =>
    rw [List.map_cons, List.nodup_cons] at h
    rw [List.filter_cons]
    by_cases hk : (p.key == k) = true
    · rw [if_pos hk]
      right
      refine ⟨p, ?_⟩
      have : t.filter (fun x => x.key == k) = [] := by
        rw [List.filter_eq_nil_iff]
        intro x hx hc
        apply h.1
        rw [List.mem_map]
        refine ⟨x, hx, ?_⟩
        rw [eq_of_beq hc, ← eq_of_beq hk]
      rw [this]
    · rw [if_neg hk]
      exact ih h.2

theorem mergeLeft_keys {L P : List Rec} (h : (P.map (fun r => r.key)).Nodup) :
    (mergeLeft L P).map (fun x => x.1.key) = L.map (fun r => r.key) := by
  induction L with
  | nil => rfl
  | cons l t ih =>
    unfold mergeLeft at ih ⊢
    rw [List.flatMap_cons, List.map_append, ih]
    rcases filter_key_nil_or_single h l.key with hf | ⟨p, hf⟩
    · rw [hf]
      rfl
    · rw [hf]
      rfl

theorem mem_mergeLeft {L P : List Rec} {l p : Rec}
    (hl : l ∈ L) (hp : p ∈ P) (hk : p.key = l.key) :
    (l, some p.nav) ∈ mergeLeft L P := by
  unfold mergeLeft
  apply List.mem_flatMap.mpr
  refine ⟨l, hl, ?_⟩
  have hpf : p ∈ P.filter (fun x => x.key == l.key) :=
    List.mem_filter.mpr ⟨hp, by simp [hk]⟩
  cases hf : P.filter (fun x => x.key == l.key) with
  | nil => rw [hf] at hpf; exact absurd hpf (List.not_mem_nil p)
  | cons m ms =>
    rw [hf] at hpf
    simp only [hf]
    exact List.mem_map.mpr ⟨p, hpf, rfl⟩

theorem comparison_keys_perm (L P : List Rec)
    (h : (P.map (fun r => r.key)).Nodup) :
    ((buildResult L P).comparison.map (fun r => r.key)).Perm
      (L.map (fun r => r.key)) := by
  have h1 : (buildResult L P).comparison.Perm
      ((mergeLeft L P).map (fun x => mkOut x.1 x.2)) := isort_perm _ _
  refine (h1.map (fun r => r.key)).trans ?_
  rw [List.map_map]
  have h2 : ((fun r => r.key) ∘ fun x => mkOut x.1 x.2) =
      (fun x : Rec × Option ℚ => x.1.key) := by
    funext x
    exact mkOut_key x.1 x.2
  rw [h2, mergeLeft_keys h]

theorem mem_comparison {L P : List Rec} {l p : Rec}
    (hl : l ∈ L) (hp : p ∈ P) (hk : p.key = l.key) :
    mkOut l (some p.nav) ∈ (buildResult L P).comparison := by
  have h1 : (buildResult L P).comparison.Perm
      ((mergeLeft L P).map (fun x => mkOut x.1 x.2)) := isort_perm _ _
  rw [h1.mem_iff]
  exact List.mem_map.mpr ⟨(l, some p.nav), mem_mergeLeft hl hp hk, rfl⟩

theorem mem_mergeLeft_none {L P : List Rec} {l : Rec}
    (hl : l ∈ L) (h : ∀ p ∈ P, p.key ≠ l.key) :
    (l, none) ∈ mergeLeft L P := by
  unfold mergeLeft
  apply List.mem_flatMap.mpr
  refine ⟨l, hl, ?_⟩
  have hf : P.filter (fun x => x.key == l.key) = [] := by
    rw [List.filter_eq_nil_iff]
    intro x hx hc
    exact h x hx (eq_of_beq hc)
  simp only [hf]
  exact List.mem_singleton.mpr rfl

theorem mem_missingInPast {L P : List Rec} {l : Rec}
    (hl : l ∈ L) (h : ∀ p ∈ P, p.key ≠ l.key) :
    (l.name, l.nav) ∈ (buildResult L P).missingInPast := by
  have h1 : (buildResult L P).missingInPast.Perm
      ((L.filter (fun l => !(P.any (fun p => p.key == l.key)))).map
        (fun l => (l.name, l.nav))) := isort_perm _ _
  rw [h1.mem_iff]
  apply List.mem_map.mpr
  refine ⟨l, List.mem_filter.mpr ⟨hl, ?_⟩, rfl⟩
  simp only [Bool.not_eq_true']
  rw [List.any_eq_false]
  intro p hp
  exact fun hc => h p hp (eq_of_beq hc)

theorem mem_missingInLatest {L P : List Rec} {p : Rec}
    (hp : p ∈ P) (h : ∀ l ∈ L, l.key ≠ p.key) :
    (p.name, p.nav) ∈ (buildResult L P).missingInLatest := by
  have h1 : (buildResult L P).missingInLatest.Perm
      ((P.filter (fun p => !(L.any (fun l => l.key == p.key)))).map
        (fun p => (p.name, p.nav))) := isort_perm _ _
  rw [h1.mem_iff]
  apply List.mem_map.mpr
  refine ⟨p, List.mem_filter.mpr ⟨hp, ?_⟩, rfl⟩
  simp only [Bool.not_eq_true']
  rw [List.any_eq_false]
  intro l hl
  exact fun hc => h l hl (eq_of_beq hc)

/-! ### Inversion of the extraction and comparison pipeline -/

theorem extract_ok_inv {s : List (List Cell)} {L : List Rec}
    (h : extract_nav_data s = .ok L) :
    ∃ pre, extractPre s = .ok pre ∧ L = dedupKeys pre := by
  unfold extract_nav_data at h
  cases hp : extractPre s with
  | error e => rw [hp] at h; exact absurd h (by simp [Except.map])
  | ok pre =>
    rw [hp] at h
    simp only [Except.map] at h
    exact ⟨pre, rfl, (Except.ok.inj h).symm⟩

theorem compare_ok_inv {a b : List (List Cell)} {out : CompareResult}
    (h : compare_nav_files a b = .ok out) :
    ∃ L P, extract_nav_data a = .ok L ∧ extract_nav_data b = .ok P ∧
      out = buildResult L P := by
  unfold compare_nav_files at h
  cases ha : extract_nav_data a with
  | error e => rw [ha] at h; exact absurd h (by simp)
  | ok L =>
    cases hb : extract_nav_data b with
    | error e => rw [ha, hb] at h; exact absurd h (by simp)
    | ok P =>
      rw [ha, hb] at h
      exact ⟨L, P, rfl, rfl, (Except.ok.inj h).symm⟩

/-! ### Row order and header-stage inversion -/

theorem enumFrom_fst_lt {α : Type} : ∀ (n : ℕ) (l : List α),
    (l.enumFrom n).Pairwise (fun a b => a.1 < b.1) := by
  intro n l
  induction l generalizing n with
  | nil => exact List.Pairwise.nil
  | cons x t ih =>
    rw [show (x :: t).enumFrom n = (n, x) :: t.enumFrom (n + 1) from rfl]
    rw [List.pairwise_cons]
    refine ⟨?_, ih (n + 1)⟩
    intro p hp
    rcases p with ⟨i, a⟩
    rw [List.mk_mem_enumFrom_iff_le_and_getElem?_sub] at hp
    exact Nat.lt_of_lt_of_le (Nat.lt_succ_self n) hp.1

theorem keptRows_pairwise (s : List (List Cell)) :
    (keptRows s).Pairwise (fun a b => a.1 < b.1) :=
  List.Pairwise.filter _ (enumFrom_fst_lt 0 s)

theorem rowToRec_none_of_bad {ni vi i : ℕ} {row : List Cell}
    (h : coerceNum (row.getD vi Cell.empty) = none ∨
         row.getD ni Cell.empty = Cell.empty) :
    rowToRec ni vi i row = none := by
  unfold rowToRec
  by_cases h1 : row.getD vi Cell.empty = Cell.empty
  · rw [if_pos h1]
  · rw [if_neg h1]
    rcases h with h | h
    · rw [h]
      rfl
    · cases h2 : coerceNum (row.getD vi Cell.empty) with
      | none => rfl
      | some q =>
        rw [Option.some_bind, if_pos h]

theorem rowToRec_idx {ni vi i : ℕ} {row : List Cell} {r : Rec}
    (h : rowToRec ni vi i row = some r) : r.idx = i := by
  unfold rowToRec at h
  by_cases h1 : row.getD vi Cell.empty = Cell.empty
  · rw [if_pos h1] at h; exact absurd h (by simp)
  · rw [if_neg h1] at h
    cases h2 : coerceNum (row.getD vi Cell.empty) with
    | none => rw [h2] at h; exact absurd h (by simp)
    | some q =>
      rw [h2, Option.some_bind] at h
      by_cases h3 : row.getD ni Cell.empty = Cell.empty
      · rw [if_pos h3] at h; exact absurd h (by simp)
      · rw [if_neg h3] at h
        have := Option.some.inj h
        rw [← this]

theorem rowsToRecs_pairwise (ni vi : ℕ) {rows : List (ℕ × List Cell)}
    (h : rows.Pairwise (fun a b => a.1 < b.1)) :
    (rowsToRecs ni vi rows).Pairwise (fun a b => a.idx < b.idx) := by
  unfold rowsToRecs
  apply List.Pairwise.filterMap _ ?_ h
  intro a b hab x hx y hy
  rw [rowToRec_idx hx, rowToRec_idx hy]
  exact hab

theorem headerStage_ok_inv {s : List (List Cell)} {i : ℕ} {hdr : List Cell}
    {data : List (ℕ × List Cell)}
    (h : headerStage s = .ok (i, hdr, data)) :
    ∃ row, (keptRows s).find? (fun p => rowHasMarker p.2) = some (i, row) ∧
      ∃ hlt : i < (keptRows s).length,
        hdr = ((keptRows s).get ⟨i, hlt⟩).2 ∧
        data = (keptRows s).drop (i + 1) := by
  unfold headerStage at h
  cases hf : (keptRows s).find? (fun p => rowHasMarker p.2) with
  | none => rw [hf] at h; exact absurd h (by simp)
  | some pr =>
    rcases pr with ⟨j, row⟩
    rw [hf] at h
    simp only [] at h
    by_cases hlt : j < (keptRows s).length
    · rw [dif_pos hlt] at h
      have h4 := Except.ok.inj h
      simp only [Prod.mk.injEq] at h4
      obtain ⟨hji, hhdr, hdata⟩ := h4
      subst hji
      exact ⟨row, rfl, hlt, hhdr.symm, hdata.symm⟩
    · rw [dif_neg hlt] at h
      exact absurd h (by simp)

theorem extractPre_ok_inv {s : List (List Cell)} {pre : List Rec}
    (h : extractPre s = .ok pre) :
    ∃ i hdr data ni vi, headerStage s = .ok (i, hdr, data) ∧
      (colLabels hdr).findIdx? (fun c => c == "NAV Name") = some ni ∧
      (colLabels hdr).findIdx? (fun c => c == "Net Asset Value") = some vi ∧
      pre = rowsToRecs ni vi data := by
  unfold extractPre at h
  cases hh : headerStage s with
  | error e => rw [hh] at h; exact absurd h (by simp)
  | ok trip =>
    rcases trip with ⟨i, hdr, data⟩
    rw [hh] at h
    simp only [] at h
    cases hn : (colLabels hdr).findIdx? (fun c => c == "NAV Name") with
    | none =>
      cases hv : (colLabels hdr).findIdx? (fun c => c == "Net Asset Value") with
      | none => simp [hn, hv] at h
      | some vi => simp [hn, hv] at h
    | some ni =>
      cases hv : (colLabels hdr).findIdx? (fun c => c == "Net Asset Value") with
      | none => simp [hn, hv] at h
      | some vi =>
        rw [hn, hv] at h
        simp only [] at h
        exact ⟨i, hdr, data, ni, vi, rfl, hn, hv, (Except.ok.inj h).symm⟩

theorem extractPre_pairwise {s : List (List Cell)} {pre : List Rec}
    (h : extractPre s = .ok pre) :
    pre.Pairwise (fun a b => a.idx < b.idx) := by
  obtain ⟨i, hdr, data, ni, vi, hh, _, _, hpre⟩ := extractPre_ok_inv h
  obtain ⟨row, _, hlt, _, hdata⟩ := headerStage_ok_inv hh
  subst hpre hdata
  exact rowsToRecs_pairwise ni vi
    (List.Pairwise.sublist (List.drop_sublist _ _) (keptRows_pairwise s))

/-! ### Facts about the spec-modelled pipeline (exclusion, variants, ledger) -/

namespace SpecModel

theorem length_filter_not {α : Type} (p : α → Bool) (l : List α) :
    (l.filter p).length + (l.filter (fun a => !(p a))).length = l.length := by
  induction l with
  | nil => rfl
  | cons a t ih =>
    by_cases hp : p a = true
    · rw [List.filter_cons_of_pos hp,
        List.filter_cons_of_neg (by simp [hp])]
      simp only [List.length_cons]
      omega
    · rw [List.filter_cons_of_neg hp,
        List.filter_cons_of_pos (by simp at hp; simp [hp])]
      simp only [List.length_cons]
      omega

theorem minIdx_mem : ∀ (l : List Rec) (a : Rec), minIdx a l ∈ a :: l := by
  intro l
  induction l with
  | nil =>
    intro a
    rw [minIdx, List.foldl_nil]
    exact List.mem_cons_self a []
  | cons x t ih =>
    intro a
    rw [minIdx, List.foldl_cons]
    have h := ih (if x.idx < a.idx then x else a)
    rw [minIdx] at h
    rcases List.mem_cons.mp h with h | h
    · rw [h]
      by_cases hx : x.idx < a.idx
      · rw [if_pos hx]
        exact List.mem_cons_of_mem a (List.mem_cons_self x t)
      · rw [if_neg hx]
        exact List.mem_cons_self a (x :: t)
    · exact List.mem_cons_of_mem a (List.mem_cons_of_mem x h)

theorem chooseCanonical_mem (cfg : RuleConfig) (r : Rec) (same : List Rec) :
    chooseCanonical cfg r same ∈ r :: same := by
  unfold chooseCanonical
  cases hr : cfg.variantPriorityLadder.find?
      (fun rule => (r :: same).any (fun m => matchesRule rule m.name)) with
  | none =>
    simp only []
    exact minIdx_mem same r
  | some rule =>
    simp only []
    cases hg : (r :: same).filter (fun m => matchesRule rule m.name) with
    | nil => exact List.mem_cons_self r same
    | cons m ms =>
      have h1 : minIdx m ms ∈ m :: ms := minIdx_mem ms m
      exact (hg ▸ List.filter_sublist (r :: same)).subset h1

theorem resolveVariants_partition (cfg : RuleConfig) : ∀ (l : List Rec),
    (resolveVariants cfg l).1.length + (resolveVariants cfg l).2.length =
      l.length := by
  have H : ∀ (n : ℕ) (l : List Rec), l.length ≤ n →
      (resolveVariants cfg l).1.length + (resolveVariants cfg l).2.length =
        l.length := by
    intro n
    induction n with
    | zero =>
      intro l hl
      have : l = [] := List.eq_nil_of_length_eq_zero (Nat.le_zero.mp hl)
      subst this
      simp [resolveVariants]
    | succ n ih =>
      intro l hl
      cases l with
      | nil => simp [resolveVariants]
      | cons r rest =>
        rw [resolveVariants]
        simp only [List.length_cons, List.length_append]
        have hmem := chooseCanonical_mem cfg r
          (rest.filter (fun x => baseIdentity cfg x.name == baseIdentity cfg r.name))
        have herase := List.length_erase_of_mem hmem
        have hpart := length_filter_not
          (fun x => baseIdentity cfg x.name == baseIdentity cfg r.name) rest
        have hih := ih
          (rest.filter (fun x => !(baseIdentity cfg x.name == baseIdentity cfg r.name)))
          (by
            have := List.length_filter_le
              (fun x => !(baseIdentity cfg x.name == baseIdentity cfg r.name)) rest
            simp only [List.length_cons] at hl
            omega)
        simp only [List.length_cons] at herase
        omega
  intro l
  exact H l.length l le_rfl

theorem rcat_three_way (others : List Rec) : ∀ (l : List Rec),
    (l.filter (fun r => decide (rcat others r = .included))).length +
    (l.filter (fun r => decide (rcat others r = .zeroNav))).length +
    (l.filter (fun r => decide (rcat others r = .notComparable))).length =
      l.length := by
  intro l
  induction l with
  | nil => rfl
  | cons a t ih =>
    rw [List.filter_cons, List.filter_cons, List.filter_cons]
    cases h : rcat others a <;> simp [h] <;> omega

theorem snapshotLedger_closes (cfg : RuleConfig) (mine others : List Rec) :
    (snapshotLedger cfg mine others).totalRaw =
      (snapshotLedger cfg mine others).includedInComparison +
      (snapshotLedger cfg mine others).excludedByRule +
      (snapshotLedger cfg mine others).excludedVariant +
      (snapshotLedger cfg mine others).excludedZeroNav +
      (snapshotLedger cfg mine others).excludedNotComparable := by
  simp only [snapshotLedger]
  have hA := length_filter_not (fun r => (classify cfg r.name).isSome) mine
  have hB := resolveVariants_partition cfg
    (mine.filter (fun r => !((classify cfg r.name).isSome)))
  have hC := rcat_three_way
    ((resolveVariants cfg (others.filter (fun r => !((classify cfg r.name).isSome)))).1)
    ((resolveVariants cfg (mine.filter (fun r => !((classify cfg r.name).isSome)))).1)
  omega

end SpecModel

/- Batteries marks rational arithmetic `@[irreducible]`; concrete runs of
the embedded program are checked by `decide`, which needs to unfold it. -/
attribute [local semireducible] Rat.mul Rat.add Rat.sub Rat.inv

/-! ## Claim theorems -/

/-- C6: the name normalization function (uppercase, collapse whitespace
runs to a single space, trim leading/trailing whitespace) is idempotent:
for every input string `x`, `normalize(normalize(x)) = normalize(x)`
(nav_compare.py lines 8-21). -/
theorem c6_normalize_idempotent (s : String) :
    normalize_name (normalize_name s) = normalize_name s := by
  unfold normalize_name
  exact congrArg String.mk (normChars_idem s.data)

/-- C1: for each snapshot, every input record lands in exactly one
reconciliation category and the ledger closes exactly: TotalRaw equals the
sum of IncludedInComparison, ExcludedByRule, ExcludedVariant,
ExcludedZeroNav and ExcludedNotComparable, for every pair of input
snapshots and every rule configuration.  The ledger pipeline is modelled
from the spec (SpecModel), since src/ contains no rule store, exclusion
filter, variant resolver, or ledger. -/
theorem c1_ledger_closes (cfg : SpecModel.RuleConfig) (snapA snapB : List Rec) :
    ((SpecModel.snapshotLedger cfg snapA snapB).totalRaw =
      (SpecModel.snapshotLedger cfg snapA snapB).includedInComparison +
      (SpecModel.snapshotLedger cfg snapA snapB).excludedByRule +
      (SpecModel.snapshotLedger cfg snapA snapB).excludedVariant +
      (SpecModel.snapshotLedger cfg snapA snapB).excludedZeroNav +
      (SpecModel.snapshotLedger cfg snapA snapB).excludedNotComparable) ∧
    ((SpecModel.snapshotLedger cfg snapB snapA).totalRaw =
      (SpecModel.snapshotLedger cfg snapB snapA).includedInComparison +
      (SpecModel.snapshotLedger cfg snapB snapA).excludedByRule +
      (SpecModel.snapshotLedger cfg snapB snapA).excludedVariant +
      (SpecModel.snapshotLedger cfg snapB snapA).excludedZeroNav +
      (SpecModel.snapshotLedger cfg snapB snapA).excludedNotComparable) :=
  ⟨SpecModel.snapshotLedger_closes cfg snapA snapB,
   SpecModel.snapshotLedger_closes cfg snapB snapA⟩

/-- C7: the join never duplicates a key - for every normalized key, at
most one ComparisonRow with that key exists across the entire comparison
output, for any pair of input snapshots (each side is deduplicated by key
at line 137, and the left join therefore produces exactly one row per
latest key). -/
theorem c7_no_duplicate_keys (latest past : List (List Cell))
    (out : CompareResult) (h : compare_nav_files latest past = .ok out) :
    (out.comparison.map (fun r => r.key)).Nodup := by
  obtain ⟨L, P, hL, hP, hout⟩ := compare_ok_inv h
  subst hout
  obtain ⟨preL, _, hLd⟩ := extract_ok_inv hL
  obtain ⟨preP, _, hPd⟩ := extract_ok_inv hP
  have hperm := comparison_keys_perm L P (hPd ▸ dedupKeys_nodup preP)
  exact hperm.symm.nodup (hLd ▸ dedupKeys_nodup preL)

/-- Witness for C7 at a concrete pair of sheets. -/
theorem c7_no_duplicate_keys_witness :
    ((CompareResult.mk
        [⟨"A FUND", "A FUND", 10, some 10, some 0, PctVal.fin 0⟩]
        [] [("B FUND", 20)]).comparison.map (fun r => r.key)).Nodup :=
  c7_no_duplicate_keys s2latest s2past _ (by decide)

/-- C10: the comparison output sheet is sorted by changePercent in
descending order (+inf above all finite values, -inf below them), and rows
whose changePercent is missing - NaN, in particular the unmatched-past
rows - are placed at the bottom
(line 235: `sort_values("Change %", ascending=False, na_position="last")`). -/
theorem c10_output_sorted (latest past : List (List Cell))
    (out : CompareResult) (h : compare_nav_files latest past = .ok out) :
    out.comparison.Pairwise (fun a b => rowLe a b = true) ∧
    out.comparison.Pairwise
      (fun a b => a.changePct = PctVal.nan → b.changePct = PctVal.nan) := by
  obtain ⟨L, P, hL, hP, hout⟩ := compare_ok_inv h
  subst hout
  have hs : (buildResult L P).comparison.Pairwise (fun a b => rowLe a b = true) :=
    isort_sorted rowLe rowLe_total rowLe_trans _
  refine ⟨hs, hs.imp ?_⟩
  intro a b hab hnan
  unfold rowLe at hab
  rw [hnan] at hab
  cases hcb : b.changePct <;> rw [hcb] at hab <;> simp [pctTier] at hab ⊢

/-- Witness for C10 at a concrete pair of sheets (one gaining fund, one
losing fund, one fund missing from the past snapshot). -/
theorem c10_output_sorted_witness :
    (CompareResult.mk
      [⟨"UP FUND", "UP FUND", 11, some 10, some 1, PctVal.fin 10⟩,
       ⟨"DOWN FUND", "DOWN FUND", 9, some 10, some (-1), PctVal.fin (-10)⟩,
       ⟨"ONLY FUND", "ONLY FUND", 7, none, none, PctVal.nan⟩]
      [("ONLY FUND", 7)] []).comparison.Pairwise (fun a b => rowLe a b = true) ∧
    (CompareResult.mk
      [⟨"UP FUND", "UP FUND", 11, some 10, some 1, PctVal.fin 10⟩,
       ⟨"DOWN FUND", "DOWN FUND", 9, some 10, some (-1), PctVal.fin (-10)⟩,
       ⟨"ONLY FUND", "ONLY FUND", 7, none, none, PctVal.nan⟩]
      [("ONLY FUND", 7)] []).comparison.Pairwise
        (fun a b => a.changePct = PctVal.nan → b.changePct = PctVal.nan) :=
  c10_output_sorted s10latest s10past _ (by decide)

/-- C2 counterexample: the code performs a LEFT join (line 219,
`how="left"`), not an outer join: with key "B FUND" present only in the
past snapshot, the joined comparison table contains only the latest key
"A FUND"; the past-only record survives only in the separate
Missing_in_Latest listing, not in the join output. -/
theorem c2_outer_join_cex :
    extract_nav_data s2past =
      .ok [⟨"A FUND", 10, "A FUND", 1⟩, ⟨"B FUND", 20, "B FUND", 2⟩] ∧
    compare_nav_files s2latest s2past =
      .ok ⟨[⟨"A FUND", "A FUND", 10, some 10, some 0, PctVal.fin 0⟩],
           [], [("B FUND", 20)]⟩ := by
  exact ⟨by decide, by decide⟩

/-- C2 corrected: the reconciler joins the two processed snapshots with a
LEFT join on the normalized key, so the comparison table's keys are
exactly the latest snapshot's keys; a past-only key is absent from the
joined table and is preserved only in the Missing_in_Latest listing
(and a latest-only key appears in the joined table and additionally in the
Missing_in_Past listing). -/
theorem c2_left_join_semantics (latest past : List (List Cell))
    (L P : List Rec) (out : CompareResult)
    (hL : extract_nav_data latest = .ok L)
    (hP : extract_nav_data past = .ok P)
    (h : compare_nav_files latest past = .ok out) :
    (out.comparison.map (fun r => r.key)).Perm (L.map (fun r => r.key)) ∧
    (∀ p ∈ P, (∀ l ∈ L, l.key ≠ p.key) →
      (p.name, p.nav) ∈ out.missingInLatest) ∧
    (∀ l ∈ L, (∀ p ∈ P, p.key ≠ l.key) →
      (l.name, l.nav) ∈ out.missingInPast) := by
  obtain ⟨L', P', hL', hP', hout⟩ := compare_ok_inv h
  rw [hL] at hL'
  rw [hP] at hP'
  have hLL := Except.ok.inj hL'
  have hPP := Except.ok.inj hP'
  subst hLL
  subst hPP
  subst hout
  obtain ⟨preP, _, hPd⟩ := extract_ok_inv hP
  refine ⟨comparison_keys_perm L P (hPd ▸ dedupKeys_nodup preP), ?_, ?_⟩
  · intro p hp hnol
    exact mem_missingInLatest hp hnol
  · intro l hl hnop
    exact mem_missingInPast hl hnop

/-- Witness for the corrected C2 at the concrete sheets of the
counterexample. -/
theorem c2_left_join_witness :
    ((CompareResult.mk [⟨"A FUND", "A FUND", 10, some 10, some 0, PctVal.fin 0⟩]
        [] [("B FUND", 20)]).comparison.map (fun r => r.key)).Perm
      (([⟨"A FUND", (10:ℚ), "A FUND", 1⟩] : List Rec).map (fun r => r.key)) ∧
    (∀ p ∈ ([⟨"A FUND", (10:ℚ), "A FUND", 1⟩,
             ⟨"B FUND", 20, "B FUND", 2⟩] : List Rec),
      (∀ l ∈ ([⟨"A FUND", (10:ℚ), "A FUND", 1⟩] : List Rec), l.key ≠ p.key) →
      (p.name, p.nav) ∈
        (CompareResult.mk [⟨"A FUND", "A FUND", 10, some 10, some 0, PctVal.fin 0⟩]
          [] [("B FUND", 20)]).missingInLatest) ∧
    (∀ l ∈ ([⟨"A FUND", (10:ℚ), "A FUND", 1⟩] : List Rec),
      (∀ p ∈ ([⟨"A FUND", (10:ℚ), "A FUND", 1⟩,
               ⟨"B FUND", 20, "B FUND", 2⟩] : List Rec), p.key ≠ l.key) →
      (l.name, l.nav) ∈
        (CompareResult.mk [⟨"A FUND", "A FUND", 10, some 10, some 0, PctVal.fin 0⟩]
          [] [("B FUND", 20)]).missingInPast) :=
  c2_left_join_semantics s2latest s2past _ _ _ (by decide) (by decide) (by decide)

/-- C3 counterexample: no zero-NAV guard exists in the code (lines
222-230): the key-matched pair with latest NAV 0 and past NAV 10 is NOT
classified away - a ComparisonRow is emitted for it, with the division
performed (changePercent -100). -/
theorem c3_zero_nav_cex :
    compare_nav_files s3latest s3past =
      .ok ⟨[⟨"ABC FUND", "ABC FUND", 0, some 10, some (-10), PctVal.fin (-100)⟩],
           [], []⟩ := by
  decide

/-- C3 corrected: for every key-matched pair the code emits a
ComparisonRow unconditionally, zero NAVs included; when the past NAV is
zero the float division is performed and its changePercent is the IEEE
result (+inf, -inf, or NaN by the sign of the change), so zero-NAV pairs
are not excluded and a non-finite changePercent can appear in the
output. -/
theorem c3_no_zero_guard (latest past : List (List Cell))
    (L P : List Rec) (out : CompareResult) (l p : Rec)
    (hL : extract_nav_data latest = .ok L)
    (hP : extract_nav_data past = .ok P)
    (h : compare_nav_files latest past = .ok out)
    (hl : l ∈ L) (hp : p ∈ P) (hk : p.key = l.key)
    (hz : l.nav = 0 ∨ p.nav = 0) :
    mkOut l (some p.nav) ∈ out.comparison ∧
    (p.nav = 0 → (mkOut l (some p.nav)).changePct =
      (if 0 < l.nav then PctVal.posInf
       else if l.nav < 0 then PctVal.negInf else PctVal.nan)) := by
  obtain ⟨L', P', hL', hP', hout⟩ := compare_ok_inv h
  rw [hL] at hL'
  rw [hP] at hP'
  have hLL := Except.ok.inj hL'
  have hPP := Except.ok.inj hP'
  subst hLL
  subst hPP
  subst hout
  refine ⟨mem_comparison hl hp hk, ?_⟩
  intro hp0
  rw [hp0]
  unfold mkOut
  simp [sub_zero]

/-- Witness for the corrected C3: a matched pair with past NAV 0 and
latest NAV 5 produces a +inf changePercent row. -/
theorem c3_no_zero_guard_witness :
    mkOut ⟨"DEF FUND", 5, "DEF FUND", 1⟩ (some 0) ∈
      (CompareResult.mk
        [⟨"DEF FUND", "DEF FUND", 5, some 0, some 5, PctVal.posInf⟩]
        [] []).comparison ∧
    ((0:ℚ) = 0 → (mkOut ⟨"DEF FUND", 5, "DEF FUND", 1⟩ (some 0)).changePct =
      (if (0:ℚ) < 5 then PctVal.posInf
       else if (5:ℚ) < 0 then PctVal.negInf else PctVal.nan)) :=
  c3_no_zero_guard s3wLatest s3wPast [⟨"DEF FUND", 5, "DEF FUND", 1⟩]
    [⟨"DEF FUND", 0, "DEF FUND", 1⟩]
    (CompareResult.mk [⟨"DEF FUND", "DEF FUND", 5, some 0, some 5, PctVal.posInf⟩]
      [] [])
    ⟨"DEF FUND", 5, "DEF FUND", 1⟩ ⟨"DEF FUND", 0, "DEF FUND", 1⟩
    (by decide) (by decide) (by decide) (by decide) (by decide) (by decide)
    (by decide)

/-- C4 counterexample: the code resolves nothing by baseIdentity - it
deduplicates by the normalized full-name key only (line 137).  The two
records "XYZ FUND REGULAR PLAN GROWTH" and "XYZ FUND DIRECT PLAN GROWTH"
share the spec's baseIdentity "XYZ FUND" (strip terms and ladder of the
spec's Scenario B), yet BOTH survive extraction into the final record set:
more than one record per baseIdentity, no exclusion ledger entry for
either. -/
theorem c4_variant_resolution_cex :
    extract_nav_data s4sheet =
      .ok [⟨"XYZ FUND REGULAR PLAN GROWTH", 20, "XYZ FUND REGULAR PLAN GROWTH", 1⟩,
           ⟨"XYZ FUND DIRECT PLAN GROWTH", 25, "XYZ FUND DIRECT PLAN GROWTH", 2⟩] ∧
    SpecModel.baseIdentity cfgX "XYZ FUND REGULAR PLAN GROWTH" =
      SpecModel.baseIdentity cfgX "XYZ FUND DIRECT PLAN GROWTH" ∧
    ("XYZ FUND REGULAR PLAN GROWTH" : String) ≠ "XYZ FUND DIRECT PLAN GROWTH" := by
  exact ⟨by decide, by decide, by decide⟩

/-- C4 corrected: within one snapshot the code keeps exactly one record
per distinct normalized KEY (not per baseIdentity): the final record set
has pairwise distinct keys, every pre-deduplication key is still
represented, and the survivor for a key is its earliest occurrence (the
smallest original row index) - pandas `drop_duplicates(subset=["Key"])`
with the default keep="first".  Records sharing a baseIdentity but
differing in key all survive, and dropped duplicates are not recorded in
any exclusion ledger (the code has none). -/
theorem c4_key_dedup (s : List (List Cell)) (pre L : List Rec)
    (hpre : extractPre s = .ok pre) (hL : extract_nav_data s = .ok L) :
    (L.map (fun r => r.key)).Nodup ∧
    (∀ x ∈ pre, ∃ r ∈ L, r.key = x.key) ∧
    (∀ r ∈ L, r ∈ pre ∧ ∀ x ∈ pre, x.key = r.key → r.idx ≤ x.idx) := by
  obtain ⟨pre', hpre', hdd⟩ := extract_ok_inv hL
  rw [hpre] at hpre'
  have hpp := Except.ok.inj hpre'
  subst hpp
  subst hdd
  refine ⟨dedupKeys_nodup pre, ?_, ?_⟩
  · intro x hx
    have hk : x.key ∈ (dedupKeys pre).map (fun r => r.key) :=
      dedupKeys_keys_complete (List.mem_map.mpr ⟨x, hx, rfl⟩)
    obtain ⟨r, hr, hkey⟩ := List.mem_map.mp hk
    exact ⟨r, hr, hkey⟩
  · intro r hr
    exact ⟨dedupKeys_mem hr, fun x hx hkey =>
      dedupKeys_min_idx (extractPre_pairwise hpre) r hr x hx hkey⟩

/-- Witness for the corrected C4 at the Scenario-B sheet. -/
theorem c4_key_dedup_witness :
    (([⟨"XYZ FUND REGULAR PLAN GROWTH", (20:ℚ), "XYZ FUND REGULAR PLAN GROWTH", 1⟩,
       ⟨"XYZ FUND DIRECT PLAN GROWTH", 25, "XYZ FUND DIRECT PLAN GROWTH", 2⟩] :
        List Rec).map (fun r => r.key)).Nodup ∧
    (∀ x ∈ ([⟨"XYZ FUND REGULAR PLAN GROWTH", (20:ℚ), "XYZ FUND REGULAR PLAN GROWTH", 1⟩,
             ⟨"XYZ FUND DIRECT PLAN GROWTH", 25, "XYZ FUND DIRECT PLAN GROWTH", 2⟩] :
              List Rec),
      ∃ r ∈ ([⟨"XYZ FUND REGULAR PLAN GROWTH", (20:ℚ), "XYZ FUND REGULAR PLAN GROWTH", 1⟩,
              ⟨"XYZ FUND DIRECT PLAN GROWTH", 25, "XYZ FUND DIRECT PLAN GROWTH", 2⟩] :
               List Rec), r.key = x.key) ∧
    (∀ r ∈ ([⟨"XYZ FUND REGULAR PLAN GROWTH", (20:ℚ), "XYZ FUND REGULAR PLAN GROWTH", 1⟩,
             ⟨"XYZ FUND DIRECT PLAN GROWTH", 25, "XYZ FUND DIRECT PLAN GROWTH", 2⟩] :
              List Rec),
      r ∈ ([⟨"XYZ FUND REGULAR PLAN GROWTH", (20:ℚ), "XYZ FUND REGULAR PLAN GROWTH", 1⟩,
            ⟨"XYZ FUND DIRECT PLAN GROWTH", 25, "XYZ FUND DIRECT PLAN GROWTH", 2⟩] :
             List Rec) ∧
      ∀ x ∈ ([⟨"XYZ FUND REGULAR PLAN GROWTH", (20:ℚ), "XYZ FUND REGULAR PLAN GROWTH", 1⟩,
              ⟨"XYZ FUND DIRECT PLAN GROWTH", 25, "XYZ FUND DIRECT PLAN GROWTH", 2⟩] :
               List Rec), x.key = r.key → r.idx ≤ x.idx) :=
  c4_key_dedup s4sheet
    [⟨"XYZ FUND REGULAR PLAN GROWTH", 20, "XYZ FUND REGULAR PLAN GROWTH", 1⟩,
     ⟨"XYZ FUND DIRECT PLAN GROWTH", 25, "XYZ FUND DIRECT PLAN GROWTH", 2⟩]
    [⟨"XYZ FUND REGULAR PLAN GROWTH", 20, "XYZ FUND REGULAR PLAN GROWTH", 1⟩,
     ⟨"XYZ FUND DIRECT PLAN GROWTH", 25, "XYZ FUND DIRECT PLAN GROWTH", 2⟩]
    (by decide) (by decide)

/-- C5 counterexample: the emitted change column is ROUNDED to 4 decimal
places (line 229), so it does not in general equal latestNav - pastNav:
with raw NAVs 10.000149 and 10.000051 the emitted change is 0.0001, which
differs both from the raw difference 0.000098 and from the difference of
the two displayed (4-dp-rounded) NAVs, which is 0. -/
theorem c5_rounding_cex :
    compare_nav_files s5latest s5past =
      .ok ⟨[⟨"ABC FUND", "ABC FUND", 100001/10000, some (100001/10000),
            some (1/10000), PctVal.fin 0⟩], [], []⟩ ∧
    ((1:ℚ)/10000 ≠ 10000149/1000000 - 10000051/1000000) ∧
    ((1:ℚ)/10000 ≠ (100001:ℚ)/10000 - 100001/10000) := by
  exact ⟨by decide, by decide, by decide⟩

/-- C5 corrected: for every key-matched pair with both NAVs nonzero, the
emitted ComparisonRow satisfies
`change = round(latestNav - pastNav, 4)` (display rounding, line 229) and
`changePercent = round((latestNav - pastNav) / pastNav * 100, 2)` computed
from the UNROUNDED difference (line 224 runs before the rounding);
Scenario A (latest 10.50 vs past 10.00) yields change 0.50 and
changePercent 5.0. -/
theorem c5_change_formula (latest past : List (List Cell))
    (L P : List Rec) (out : CompareResult) (l p : Rec)
    (hL : extract_nav_data latest = .ok L)
    (hP : extract_nav_data past = .ok P)
    (h : compare_nav_files latest past = .ok out)
    (hl : l ∈ L) (hp : p ∈ P) (hk : p.key = l.key)
    (hl0 : l.nav ≠ 0) (hp0 : p.nav ≠ 0) :
    mkOut l (some p.nav) ∈ out.comparison ∧
    (mkOut l (some p.nav)).change = some (round4 (l.nav - p.nav)) ∧
    (mkOut l (some p.nav)).changePct =
      PctVal.fin (round2 ((l.nav - p.nav) / p.nav * 100)) := by
  obtain ⟨L', P', hL', hP', hout⟩ := compare_ok_inv h
  rw [hL] at hL'
  rw [hP] at hP'
  have hLL := Except.ok.inj hL'
  have hPP := Except.ok.inj hP'
  subst hLL
  subst hPP
  subst hout
  refine ⟨mem_comparison hl hp hk, rfl, ?_⟩
  unfold mkOut
  simp only []
  rw [if_neg hp0]

/-- Witness for the corrected C5: Scenario A of the spec - latest NAV
10.50 against past NAV 10.00 for the same name yields change 0.50 and
changePercent 5.0. -/
theorem c5_change_formula_witness :
    (mkOut ⟨"ABC Fund - Direct Plan - Growth", 21/2,
        "ABC FUND - DIRECT PLAN - GROWTH", 1⟩ (some 10) ∈
      (CompareResult.mk
        [⟨"ABC Fund - Direct Plan - Growth", "ABC FUND - DIRECT PLAN - GROWTH",
          21/2, some 10, some (1/2), PctVal.fin 5⟩] [] []).comparison ∧
     (mkOut ⟨"ABC Fund - Direct Plan - Growth", 21/2,
        "ABC FUND - DIRECT PLAN - GROWTH", 1⟩ (some 10)).change =
       some (round4 ((21:ℚ)/2 - 10)) ∧
     (mkOut ⟨"ABC Fund - Direct Plan - Growth", 21/2,
        "ABC FUND - DIRECT PLAN - GROWTH", 1⟩ (some 10)).changePct =
       PctVal.fin (round2 (((21:ℚ)/2 - 10) / 10 * 100))) ∧
    round4 ((21:ℚ)/2 - 10) = 1/2 ∧
    round2 (((21:ℚ)/2 - 10) / 10 * 100) = 5 :=
  ⟨c5_change_formula sAlatest sApast
      [⟨"ABC Fund - Direct Plan - Growth", 21/2, "ABC FUND - DIRECT PLAN - GROWTH", 1⟩]
      [⟨"ABC Fund - Direct Plan - Growth", 10, "ABC FUND - DIRECT PLAN - GROWTH", 1⟩]
      (CompareResult.mk
        [⟨"ABC Fund - Direct Plan - Growth", "ABC FUND - DIRECT PLAN - GROWTH",
          21/2, some 10, some (1/2), PctVal.fin 5⟩] [] [])
      ⟨"ABC Fund - Direct Plan - Growth", 21/2, "ABC FUND - DIRECT PLAN - GROWTH", 1⟩
      ⟨"ABC Fund - Direct Plan - Growth", 10, "ABC FUND - DIRECT PLAN - GROWTH", 1⟩
      (by decide) (by decide) (by decide) (by decide) (by decide) (by decide)
      (by decide) (by decide),
   by decide, by decide⟩

/-- C8: a data row whose value cell fails numeric coercion or whose name
cell is blank is handled non-fatally (lines 115, 124-125, 128): it
produces no record, the surrounding rows are processed exactly as if the
bad row were absent, and it is not counted in TotalRaw (the count of rows
that coerced with a non-blank name). -/
theorem c8_row_errors_nonfatal (ni vi i : ℕ) (row : List Cell)
    (pre post : List (ℕ × List Cell))
    (hbad : coerceNum (row.getD vi Cell.empty) = none ∨
            row.getD ni Cell.empty = Cell.empty) :
    rowToRec ni vi i row = none ∧
    rowsToRecs ni vi (pre ++ (i, row) :: post) =
      rowsToRecs ni vi pre ++ rowsToRecs ni vi post ∧
    totalRawRows ni vi (pre ++ (i, row) :: post) =
      totalRawRows ni vi pre + totalRawRows ni vi post := by
  have h0 : rowToRec ni vi i row = none := rowToRec_none_of_bad hbad
  have h2 : rowsToRecs ni vi (pre ++ (i, row) :: post) =
      rowsToRecs ni vi pre ++ rowsToRecs ni vi post := by
    unfold rowsToRecs
    rw [List.filterMap_append, List.filterMap_cons]
    simp only [h0]
  refine ⟨h0, h2, ?_⟩
  unfold totalRawRows
  rw [h2, List.length_append]

/-- Witness for C8: a textual (non-numeric) value cell between two good
rows. -/
theorem c8_row_errors_nonfatal_witness :
    (coerceNum ([Cell.str "X FUND", Cell.str "not a number"].getD 1 Cell.empty) =
        none ∨
      [Cell.str "X FUND", Cell.str "not a number"].getD 0 Cell.empty =
        Cell.empty) ∧
    (rowToRec 0 1 2 [Cell.str "X FUND", Cell.str "not a number"] = none ∧
     rowsToRecs 0 1 ([(1, [Cell.str "A FUND", Cell.num 3 "3"])] ++
        (2, [Cell.str "X FUND", Cell.str "not a number"]) ::
        [(3, [Cell.str "B FUND", Cell.num 4 "4"])]) =
      rowsToRecs 0 1 [(1, [Cell.str "A FUND", Cell.num 3 "3"])] ++
        rowsToRecs 0 1 [(3, [Cell.str "B FUND", Cell.num 4 "4"])] ∧
     totalRawRows 0 1 ([(1, [Cell.str "A FUND", Cell.num 3 "3"])] ++
        (2, [Cell.str "X FUND", Cell.str "not a number"]) ::
        [(3, [Cell.str "B FUND", Cell.num 4 "4"])]) =
      totalRawRows 0 1 [(1, [Cell.str "A FUND", Cell.num 3 "3"])] +
        totalRawRows 0 1 [(3, [Cell.str "B FUND", Cell.num 4 "4"])]) :=
  ⟨by decide,
   c8_row_errors_nonfatal 0 1 2 [Cell.str "X FUND", Cell.str "not a number"]
     [(1, [Cell.str "A FUND", Cell.num 3 "3"])]
     [(3, [Cell.str "B FUND", Cell.num 4 "4"])] (by decide)⟩

/-- C9 counterexample: the code uses the MARKER row itself as the column
header, not the row below it (line 99 assigns the marker row's cells as
`df.columns`; line 100 starts data immediately below the marker).  On a
sheet whose marker row directly carries the labels "NAV Name" / "Net Asset
Value" with a data row right below, extraction succeeds and that data row
(sheet row 1) becomes a record - whereas under the claim's reading (header
one row below the marker, data below that) the required columns would not
be found and extraction would fail. -/
theorem c9_header_below_cex :
    extract_nav_data s9sheet = .ok [⟨"Fund A", 10, "FUND A", 1⟩] ∧
    (headerStage s9sheet).toOption.map (fun x => x.1) = some 0 ∧
    extractHeaderBelow s9sheet = .error ExErr.noCols := by
  exact ⟨by decide, by decide, by decide⟩

/-- C9 corrected: on a sheet with no fully-empty rows (so that the dropna
labels coincide with the iloc positions used at lines 99-100), the column
header is the FIRST row containing the 'NAV Name' marker itself - not the
row below it - and the data region consists of exactly the rows after the
marker row.  (With fully-empty rows above the marker, the label/position
mismatch shifts the header further down by one row per dropped row.) -/
theorem c9_marker_is_header (s : List (List Cell))
    (hne : ∀ r ∈ s, allEmpty r = false) (i : ℕ) (hdr : List Cell)
    (data : List (ℕ × List Cell))
    (h : headerStage s = .ok (i, hdr, data)) :
    s[i]? = some hdr ∧ rowHasMarker hdr = true ∧
    (∀ j, j < i → ∀ r, s[j]? = some r → rowHasMarker r = false) ∧
    data = s.enum.drop (i + 1) := by
  have hkept : keptRows s = s.enum := by
    unfold keptRows
    rw [List.filter_eq_self]
    intro p hp
    rcases p with ⟨k, r⟩
    have h2 : s[k]? = some r := List.mk_mem_enum_iff_getElem?.mp hp
    have hps : r ∈ s := List.getElem?_mem h2
    rw [hne r hps]
    rfl
  obtain ⟨row, hfind, hlt, hhdr, hdata⟩ := headerStage_ok_inv h
  rw [hkept] at hfind
  have hrow : s[i]? = some row :=
    List.mk_mem_enum_iff_getElem?.mp (List.mem_of_find?_eq_some hfind)
  have hmark : rowHasMarker row = true := by
    have := List.find?_some hfind
    simpa using this
  have hhdr2 : hdr = row := by
    set kp := (keptRows s).get ⟨i, hlt⟩ with hkp
    have hq : (keptRows s)[i]? = some kp := by
      rw [← List.get?_eq_getElem?]
      exact List.get?_eq_get hlt
    rw [hkept] at hq
    have he : s.enum[i]? = (s[i]?).map (fun a => (i, a)) := by
      simpa using List.getElem?_enumFrom 0 s i
    rw [he, hrow] at hq
    have hkpr : (i, row) = kp := Option.some.inj hq
    rw [hhdr, ← hkpr]
  rw [List.find?_eq_some] at hfind
  obtain ⟨hpred, as, bs, hsplit, hprev⟩ := hfind
  have hienum : ∀ k : ℕ, s.enum[k]? = (s[k]?).map (fun a => (k, a)) := by
    intro k
    simpa using List.getElem?_enumFrom 0 s k
  have hpos : s.enum[as.length]? = some (i, row) := by
    rw [hsplit, List.getElem?_append_right (Nat.le_refl as.length)]
    simp
  have hi_eq : i = as.length := by
    rw [hienum as.length] at hpos
    cases hs : s[as.length]? with
    | none => rw [hs] at hpos; simp at hpos
    | some r' =>
      rw [hs] at hpos
      have h5 : (as.length, r') = (i, row) := by
        simp only [Option.map_some'] at hpos
        exact Option.some.inj hpos
      exact (congrArg Prod.fst h5).symm
  have hmin : ∀ j, j < i → ∀ r', s[j]? = some r' → rowHasMarker r' = false := by
    intro j hj r' hr'
    have hj' : j < as.length := hi_eq ▸ hj
    have henj : s.enum[j]? = some (j, r') := by
      rw [hienum j, hr']
      rfl
    have hasj : as[j]? = some (j, r') := by
      rw [hsplit] at henj
      rwa [List.getElem?_append, if_pos hj'] at henj
    have hmem : (j, r') ∈ as := List.getElem?_mem hasj
    have := hprev _ hmem
    simpa using this
  refine ⟨?_, ?_, hmin, ?_⟩
  · rw [hhdr2]
    exact hrow
  · rw [hhdr2]
    exact hmark
  · rw [hdata, hkept]

/-- Witness for the corrected C9 at the counterexample sheet: the marker
row (sheet row 0) is the column header and the data region is exactly the
rows after it. -/
theorem c9_marker_is_header_witness :
    s9sheet[0]? = some hdrRow ∧ rowHasMarker hdrRow = true ∧
    (∀ j, j < 0 → ∀ r, s9sheet[j]? = some r → rowHasMarker r = false) ∧
    ([(1, [Cell.str "Fund A", Cell.num 10 "10"])] : List (ℕ × List Cell)) =
      s9sheet.enum.drop (0 + 1) :=
  c9_marker_is_header s9sheet (by decide) 0 hdrRow
    [(1, [Cell.str "Fund A", Cell.num 10 "10"])] (by decide)
